import Mathlib

/-!
Verification of the ANSI-aware terminal text subsystem of the AUV helper
(`src/terminal.py`, with the `Colors` helpers from `src/main.py`).

The Python code is shallowly embedded: strings are `String`/`List Char`,
Python `int` is `Int`, `re`-based operations are realised by explicit
scanners following the exact regular expressions of the source, and the
only fallible operation (`int()` on a regex group) returns `Except`.
-/

namespace Auv

/-- Byte class `[@-Z\\-_]` of the ANSI escape regex: `0x40`-`0x5A` or `0x5C`-`0x5F`. -/
def isEscFe (c : Char) : Bool :=
  (0x40 ≤ c.toNat && c.toNat ≤ 0x5A) || (0x5C ≤ c.toNat && c.toNat ≤ 0x5F)

/-- CSI parameter byte class `[0-?]` of the ANSI escape regex: `0x30`-`0x3F`. -/
def isCsiParam (c : Char) : Bool := 0x30 ≤ c.toNat && c.toNat ≤ 0x3F

/-- CSI intermediate byte class (space through slash) of the ANSI escape regex: `0x20`-`0x2F`. -/
def isCsiInter (c : Char) : Bool := 0x20 ≤ c.toNat && c.toNat ≤ 0x2F

/-- CSI final byte class `[@-~]` of the ANSI escape regex: `0x40`-`0x7E`. -/
def isCsiFinal (c : Char) : Bool := 0x40 ≤ c.toNat && c.toNat ≤ 0x7E

/-- Length of the ANSI escape sequence matched at the head of `l` by the regex
`ESC ( [@-Z\\-_] | [ CSI params, intermediates, final ] )` used in `Terminal.len_on_display` and
`Terminal.cut`, or `none` when the regex does not match at the head. -/
def escSeqLen : List Char → Option Nat
  | c0 :: c1 :: rest =>
    if c0 = '\x1b' then
      if isEscFe c1 then some 2
      else if c1 = '[' then
        let ps := rest.takeWhile isCsiParam
        let r1 := rest.dropWhile isCsiParam
        let ds := r1.takeWhile isCsiInter
        let r2 := r1.dropWhile isCsiInter
        match r2 with
        | f :: _ => if isCsiFinal f then some (2 + ps.length + ds.length + 1) else none
        | [] => none
      else none
    else none
  | _ => none

lemma isCsiParam_of_inter (h : isCsiInter c = true) : isCsiParam c = false := by
  simp [isCsiInter] at h
  simp [isCsiParam]
  omega

lemma isCsiParam_of_final (h : isCsiFinal c = true) : isCsiParam c = false := by
  simp [isCsiFinal] at h
  simp [isCsiParam]
  omega

lemma isCsiInter_of_final (h : isCsiFinal c = true) : isCsiInter c = false := by
  simp [isCsiFinal] at h
  simp [isCsiInter]
  omega

lemma isEscFe_final (h : isEscFe c = true) : isCsiFinal c = true := by
  simp [isEscFe] at h
  simp [isCsiFinal]
  omega

/-- Structural characterisation of a head match of the ANSI escape regex:
either a two-byte escape `ESC` + Fe byte, or a full CSI sequence
`ESC [ params intermediates final`. -/
inductive EscMatch : List Char → Nat → Prop
  | fe (c1 : Char) (rest : List Char) (h : isEscFe c1 = true) :
      EscMatch ('\x1b' :: c1 :: rest) 2
  | csi (ps ds : List Char) (f : Char) (rest : List Char)
      (hps : ∀ c ∈ ps, isCsiParam c = true) (hds : ∀ c ∈ ds, isCsiInter c = true)
      (hf : isCsiFinal f = true) :
      EscMatch ('\x1b' :: '[' :: (ps ++ (ds ++ f :: rest))) (ps.length + ds.length + 3)

lemma escSeqLen_nil : escSeqLen [] = none := rfl

lemma escSeqLen_single (c : Char) : escSeqLen [c] = none := rfl

lemma escSeqLen_not_esc {c0 : Char} (l : List Char) (h : c0 ≠ '\x1b') :
    escSeqLen (c0 :: l) = none := by
  match l with
  | [] => rfl
  | c1 :: rest => simp [escSeqLen, h]

lemma escSeqLen_fe {c1 : Char} (rest : List Char) (h : isEscFe c1 = true) :
    escSeqLen ('\x1b' :: c1 :: rest) = some 2 := by
  simp [escSeqLen, h]

lemma escSeqLen_esc_other {c1 : Char} (rest : List Char) (h1 : isEscFe c1 = false)
    (h2 : c1 ≠ '[') : escSeqLen ('\x1b' :: c1 :: rest) = none := by
  simp [escSeqLen, h1, h2]

lemma escSeqLen_csi (rest : List Char) :
    escSeqLen ('\x1b' :: '[' :: rest) =
      match (rest.dropWhile isCsiParam).dropWhile isCsiInter with
      | f :: _ =>
        if isCsiFinal f then
          some (2 + (rest.takeWhile isCsiParam).length +
            ((rest.dropWhile isCsiParam).takeWhile isCsiInter).length + 1)
        else none
      | [] => none := by
  have h1 : isEscFe '[' = false := by decide
  simp [escSeqLen, h1]

lemma escSeqLen_eq_some_iff {l : List Char} {n : Nat} :
    escSeqLen l = some n ↔ EscMatch l n := by
  constructor
  · intro h
    match l with
    | [] => simp [escSeqLen] at h
    | [c] => simp [escSeqLen] at h
    | c0 :: c1 :: rest =>
      by_cases h0 : c0 = '\x1b'
      · subst h0
        by_cases h1 : isEscFe c1 = true
        · rw [escSeqLen_fe rest h1] at h
          have hn : n = 2 := by simpa using h.symm
          subst hn
          exact EscMatch.fe c1 rest h1
        · by_cases h2 : c1 = '['
          · subst h2
            rw [escSeqLen_csi rest] at h
            rcases hm : (rest.dropWhile isCsiParam).dropWhile isCsiInter with _ | ⟨f, t⟩
            · rw [hm] at h
              simp at h
            · rw [hm] at h
              by_cases hf : isCsiFinal f = true
              · simp [hf] at h
                have hn : n = (rest.takeWhile isCsiParam).length +
                    ((rest.dropWhile isCsiParam).takeWhile isCsiInter).length + 3 := by
                  omega
                have hrest : rest = rest.takeWhile isCsiParam ++
                    (((rest.dropWhile isCsiParam).takeWhile isCsiInter) ++ f :: t) := by
                  conv_lhs => rw [← List.takeWhile_append_dropWhile isCsiParam rest]
                  congr 1
                  conv_lhs =>
                    rw [← List.takeWhile_append_dropWhile isCsiInter
                      (rest.dropWhile isCsiParam)]
                  rw [hm]
                rw [hrest, hn]
                exact EscMatch.csi _ _ f t
                  (fun c hc => List.mem_takeWhile_imp hc)
                  (fun c hc => List.mem_takeWhile_imp hc) hf
              · simp [hf] at h
          · rw [escSeqLen_esc_other rest (by simpa using h1) h2] at h
            simp at h
      · rw [escSeqLen_not_esc _ h0] at h
        simp at h
  · intro h
    cases h with
    | fe c1 rest h1 => exact escSeqLen_fe rest h1
    | csi ps ds f rest hps hds hf =>
      have hnotP : ∀ x : List Char, (x = [] ∨ ∃ c t, x = c :: t ∧ isCsiParam c = false) →
          x.takeWhile isCsiParam = [] ∧ x.dropWhile isCsiParam = x := by
        rintro x (rfl | ⟨c, t, rfl, hc⟩)
        · simp
        · simp [List.takeWhile_cons, List.dropWhile_cons, hc]
      have hside : (ds ++ f :: rest) = [] ∨
          ∃ c t, (ds ++ f :: rest) = c :: t ∧ isCsiParam c = false := by
        match ds with
        | [] => exact Or.inr ⟨f, rest, rfl, isCsiParam_of_final hf⟩
        | d :: ds' =>
          exact Or.inr ⟨d, ds' ++ f :: rest, rfl, isCsiParam_of_inter (hds d (by simp))⟩
      have htk : (ps ++ (ds ++ f :: rest)).takeWhile isCsiParam = ps := by
        rw [List.takeWhile_append_of_pos hps, (hnotP _ hside).1, List.append_nil]
      have hdr : (ps ++ (ds ++ f :: rest)).dropWhile isCsiParam = ds ++ f :: rest := by
        rw [List.dropWhile_append_of_pos hps, (hnotP _ hside).2]
      have htk2 : (ds ++ f :: rest).takeWhile isCsiInter = ds := by
        rw [List.takeWhile_append_of_pos hds]
        simp [List.takeWhile_cons, isCsiInter_of_final hf]
      have hdr2 : (ds ++ f :: rest).dropWhile isCsiInter = f :: rest := by
        rw [List.dropWhile_append_of_pos hds]
        simp [List.dropWhile_cons, isCsiInter_of_final hf]
      rw [escSeqLen_csi, hdr, hdr2, htk, htk2]
      have harr : 2 + ps.length + ds.length + 1 = ps.length + ds.length + 3 := by omega
      simp [hf, harr]

lemma EscMatch.two_le {l : List Char} {n : Nat} (h : EscMatch l n) : 2 ≤ n := by
  cases h with
  | fe => omega
  | csi => omega

lemma EscMatch.le_length {l : List Char} {n : Nat} (h : EscMatch l n) : n ≤ l.length := by
  cases h with
  | fe => simp
  | csi ps ds f rest => simp; omega

lemma escSeqLen_two_le (h : escSeqLen l = some n) : 2 ≤ n :=
  (escSeqLen_eq_some_iff.mp h).two_le

lemma escSeqLen_le_length (h : escSeqLen l = some n) : n ≤ l.length :=
  (escSeqLen_eq_some_iff.mp h).le_length

/-- A head match of the escape regex survives appending further input. -/
lemma escSeqLen_append_of_some (b : List Char) (h : escSeqLen l = some n) :
    escSeqLen (l ++ b) = some n := by
  rw [escSeqLen_eq_some_iff] at h ⊢
  cases h with
  | fe c1 rest h1 => exact EscMatch.fe c1 (rest ++ b) h1
  | csi ps ds f rest hps hds hf =>
    have hl : ('\x1b' :: '[' :: (ps ++ (ds ++ f :: rest))) ++ b =
        '\x1b' :: '[' :: (ps ++ (ds ++ f :: (rest ++ b))) := by simp
    rw [hl]
    exact EscMatch.csi ps ds f (rest ++ b) hps hds hf

/-- A head match of the escape regex is contained in the first `n` characters. -/
lemma escSeqLen_take_of_some (h : escSeqLen l = some n) :
    escSeqLen (l.take n) = some n := by
  rw [escSeqLen_eq_some_iff] at h ⊢
  cases h with
  | fe c1 rest h1 => exact EscMatch.fe c1 [] h1
  | csi ps ds f rest hps hds hf =>
    have htake : ('\x1b' :: '[' :: (ps ++ (ds ++ f :: rest))).take
        (ps.length + ds.length + 3) = '\x1b' :: '[' :: (ps ++ (ds ++ [f])) := by
      have hs : ps.length + ds.length + 3 = (ps.length + (ds.length + 1)) + 1 + 1 := by
        omega
      rw [hs]
      simp only [List.take_succ_cons]
      congr 2
      rw [List.take_append]
      congr 1
      rw [List.take_append]
      simp
    rw [htake]
    have hfin := EscMatch.csi ps ds f [] hps hds hf
    simpa using hfin

/-- Fuel-driven scanner core of `stripAnsi`; every call site supplies
`fuel ≥ l.length`, which makes the fuel-exhaustion branch unreachable. -/
def stripGo : Nat → List Char → List Char
  | _, [] => []
  | 0, l => l
  | fuel + 1, c :: rest =>
    match escSeqLen (c :: rest) with
    | some n => stripGo fuel (rest.drop (n - 1))
    | none => c :: stripGo fuel rest

/-- `re.sub` of the ANSI escape regex with the empty replacement: removes every
non-overlapping leftmost match scanning left to right, leaving the
`displayable_string` of `Terminal.len_on_display`. -/
def stripAnsi (l : List Char) : List Char := stripGo l.length l

lemma stripGo_fuel : ∀ (f1 : Nat) (f2 : Nat) (l : List Char), l.length ≤ f1 →
    l.length ≤ f2 → stripGo f1 l = stripGo f2 l := by
  intro f1
  induction f1 with
  | zero =>
    intro f2 l h1 _
    have hl : l = [] := List.length_eq_zero.mp (Nat.le_zero.mp h1)
    subst hl
    cases f2 <;> rfl
  | succ f ih =>
    intro f2 l h1 h2
    match l, f2 with
    | [], f2 => cases f2 <;> rfl
    | c :: rest, 0 => simp at h2
    | c :: rest, g + 1 =>
      simp only [List.length_cons, Nat.add_le_add_iff_right] at h1 h2
      cases hm : escSeqLen (c :: rest) with
      | some n =>
        simp only [stripGo, hm]
        have hd : (rest.drop (n - 1)).length ≤ rest.length := by
          simp [List.length_drop]
        exact ih g _ (le_trans hd h1) (le_trans hd h2)
      | none =>
        simp only [stripGo, hm]
        rw [ih g rest h1 h2]

lemma stripAnsi_cons_some {c : Char} {rest : List Char} {n : Nat}
    (h : escSeqLen (c :: rest) = some n) :
    stripAnsi (c :: rest) = stripAnsi (rest.drop (n - 1)) := by
  show stripGo (c :: rest).length (c :: rest) = _
  rw [List.length_cons]
  simp only [stripGo, h]
  exact stripGo_fuel _ _ _ (by simp [List.length_drop]) le_rfl

lemma stripAnsi_cons_none {c : Char} {rest : List Char}
    (h : escSeqLen (c :: rest) = none) :
    stripAnsi (c :: rest) = c :: stripAnsi rest := by
  show stripGo (c :: rest).length (c :: rest) = _
  rw [List.length_cons]
  simp only [stripGo, h]
  rfl

lemma stripAnsi_cons_not_esc {c : Char} (l : List Char) (h : c ≠ '\x1b') :
    stripAnsi (c :: l) = c :: stripAnsi l :=
  stripAnsi_cons_none (escSeqLen_not_esc l h)

/-- A fully matched escape sequence at the front is removed by the scanner. -/
lemma stripAnsi_esc_append {e : List Char} (h : escSeqLen e = some e.length)
    (x : List Char) : stripAnsi (e ++ x) = stripAnsi x := by
  match e with
  | [] => simp [escSeqLen_nil] at h
  | c :: e' =>
    have h2 := escSeqLen_append_of_some x h
    rw [List.cons_append] at h2
    rw [List.cons_append, stripAnsi_cons_some h2]
    congr 1
    have : (c :: e').length - 1 = e'.length := by simp
    rw [this, List.drop_left]

/-- A fully matched escape sequence strips to nothing. -/
lemma stripAnsi_esc_eq_nil {e : List Char} (h : escSeqLen e = some e.length) :
    stripAnsi e = [] := by
  have := stripAnsi_esc_append h []
  simpa using this

/-- Characters other than `ESC` can never start a match, so an `ESC`-free
run passes through the scanner untouched. -/
lemma stripAnsi_noesc_append {v : List Char} (h : ∀ c ∈ v, c ≠ '\x1b')
    (x : List Char) : stripAnsi (v ++ x) = v ++ stripAnsi x := by
  induction v with
  | nil => simp
  | cons c v' ih =>
    rw [List.cons_append, stripAnsi_cons_not_esc _ (h c (by simp))]
    rw [ih (fun d hd => h d (by simp [hd]))]
    rfl

lemma stripAnsi_nil : stripAnsi [] = [] := rfl

lemma stripAnsi_of_noesc {v : List Char} (h : ∀ c ∈ v, c ≠ '\x1b') :
    stripAnsi v = v := by
  have h2 := stripAnsi_noesc_append h []
  rw [stripAnsi_nil, List.append_nil] at h2
  simpa using h2

/-- `NoEsc l`: the escape regex matches at no scan position of `l`;
for such `l` the scanner is the identity, and this property is closed
under prefixes. -/
def NoEsc (l : List Char) : Prop := ∀ i, escSeqLen (l.drop i) = none

lemma NoEsc.nil : NoEsc ([] : List Char) := fun i => by simp [escSeqLen_nil]

lemma NoEsc.head {c : Char} {l : List Char} (h : NoEsc (c :: l)) :
    escSeqLen (c :: l) = none := by
  have := h 0
  simpa using this

lemma NoEsc.tail {c : Char} {l : List Char} (h : NoEsc (c :: l)) : NoEsc l :=
  fun i => by
    have := h (i + 1)
    simpa using this

lemma NoEsc.cons {c : Char} {l : List Char} (hc : escSeqLen (c :: l) = none)
    (h : NoEsc l) : NoEsc (c :: l) := by
  intro i
  match i with
  | 0 => simpa using hc
  | i + 1 => simpa using h i

lemma NoEsc.stripAnsi_eq {l : List Char} (h : NoEsc l) : stripAnsi l = l := by
  induction l with
  | nil => rfl
  | cons c rest ih => rw [stripAnsi_cons_none h.head, ih h.tail]

/-- A prefix of an escape sequence can only match where the whole
list matches, so `NoEsc` is closed under `take`. -/
lemma NoEsc.take {l : List Char} (h : NoEsc l) (k : Nat) : NoEsc (l.take k) := by
  intro i
  cases hm : escSeqLen ((l.take k).drop i) with
  | none => rfl
  | some n =>
    exfalso
    rw [List.drop_take] at hm
    have h2 := escSeqLen_append_of_some ((l.drop i).drop (k - i)) hm
    rw [List.take_append_drop] at h2
    rw [h i] at h2
    exact Option.noConfusion h2

/-- Prepend a character to the first (non-escape-run) part of a split result. -/
def prependToHead (c : Char) : List (List Char) → List (List Char)
  | [] => [[c]]
  | t :: ts => (c :: t) :: ts

/-- Fuel-driven scanner core of `splitAnsi`; call sites supply `fuel ≥ l.length`. -/
def splitGo : Nat → List Char → List (List Char)
  | _, [] => [[]]
  | 0, l => [l]
  | fuel + 1, c :: rest =>
    match escSeqLen (c :: rest) with
    | some n => [] :: ((c :: rest).take n) :: splitGo fuel (rest.drop (n - 1))
    | none => prependToHead c (splitGo fuel rest)

/-- `re.split` with the capturing ANSI escape regex, as used by `Terminal.cut`:
the input split into alternating non-escape runs (even positions) and matched
escape sequences (odd positions), starting and ending with a possibly empty
non-escape run. -/
def splitAnsi (l : List Char) : List (List Char) := splitGo l.length l

lemma splitGo_fuel : ∀ (f1 : Nat) (f2 : Nat) (l : List Char), l.length ≤ f1 →
    l.length ≤ f2 → splitGo f1 l = splitGo f2 l := by
  intro f1
  induction f1 with
  | zero =>
    intro f2 l h1 _
    have hl : l = [] := List.length_eq_zero.mp (Nat.le_zero.mp h1)
    subst hl
    cases f2 <;> rfl
  | succ f ih =>
    intro f2 l h1 h2
    match l, f2 with
    | [], f2 => cases f2 <;> rfl
    | c :: rest, 0 => simp at h2
    | c :: rest, g + 1 =>
      simp only [List.length_cons, Nat.add_le_add_iff_right] at h1 h2
      cases hm : escSeqLen (c :: rest) with
      | some n =>
        simp only [splitGo, hm]
        have hd : (rest.drop (n - 1)).length ≤ rest.length := by
          simp [List.length_drop]
        rw [ih g _ (le_trans hd h1) (le_trans hd h2)]
      | none =>
        simp only [splitGo, hm]
        rw [ih g rest h1 h2]

lemma splitAnsi_cons_some {c : Char} {rest : List Char} {n : Nat}
    (h : escSeqLen (c :: rest) = some n) :
    splitAnsi (c :: rest) = [] :: ((c :: rest).take n) :: splitAnsi (rest.drop (n - 1)) := by
  show splitGo (c :: rest).length (c :: rest) = _
  rw [List.length_cons]
  simp only [splitGo, h]
  rw [splitGo_fuel rest.length (rest.drop (n - 1)).length _ (by simp [List.length_drop]) le_rfl]
  rfl

lemma splitAnsi_cons_none {c : Char} {rest : List Char}
    (h : escSeqLen (c :: rest) = none) :
    splitAnsi (c :: rest) = prependToHead c (splitAnsi rest) := by
  show splitGo (c :: rest).length (c :: rest) = _
  rw [List.length_cons]
  simp only [splitGo, h]
  rfl

lemma splitAnsi_nil : splitAnsi [] = [[]] := rfl

/-- `CompleteEsc e`: `e` is exactly one full match of the escape regex. -/
def CompleteEsc (e : List Char) : Prop := escSeqLen e = some e.length

/-- Alternation shape of a split result: when the flag is `false` the next part
is a non-escape run, when `true` it is a complete escape sequence. -/
inductive AltParts : Bool → List (List Char) → Prop
  | nil (b : Bool) : AltParts b []
  | txt {t : List Char} {ts : List (List Char)} (ht : NoEsc t)
      (hts : AltParts true ts) : AltParts false (t :: ts)
  | esc {e : List Char} {ts : List (List Char)} (he : CompleteEsc e)
      (hts : AltParts false ts) : AltParts true (e :: ts)

lemma splitAnsi_spec_aux : ∀ (n : Nat) (l : List Char), l.length ≤ n →
    (splitAnsi l).flatten = l ∧ AltParts false (splitAnsi l) ∧ splitAnsi l ≠ [] := by
  intro n
  induction n with
  | zero =>
    intro l hl
    have hnil : l = [] := List.length_eq_zero.mp (Nat.le_zero.mp hl)
    subst hnil
    refine ⟨by simp [splitAnsi_nil], ?_, by simp [splitAnsi_nil]⟩
    exact AltParts.txt NoEsc.nil (AltParts.nil true)
  | succ n ih =>
  intro l hl
  match l with
  | [] =>
    refine ⟨by simp [splitAnsi_nil], ?_, by simp [splitAnsi_nil]⟩
    exact AltParts.txt NoEsc.nil (AltParts.nil true)
  | c :: rest =>
    have hrl : rest.length ≤ n := by
      simpa using hl
    cases hm : escSeqLen (c :: rest) with
    | some m =>
      have hm2 : 2 ≤ m := escSeqLen_two_le hm
      have hmlen : m ≤ rest.length + 1 := by
        have := escSeqLen_le_length hm
        simpa using this
      have hdroplen : (rest.drop (m - 1)).length ≤ n := by
        simp [List.length_drop]
        omega
      obtain ⟨ihf, iha, ihne⟩ := ih (rest.drop (m - 1)) hdroplen
      rw [splitAnsi_cons_some hm]
      refine ⟨?_, ?_, by simp⟩
      · simp only [List.flatten_cons, List.nil_append]
        rw [ihf]
        have hdq : rest.drop (m - 1) = (c :: rest).drop m := by
          have : m = (m - 1) + 1 := by omega
          rw [this]
          simp
        rw [hdq, List.take_append_drop]
      · refine AltParts.txt NoEsc.nil (AltParts.esc ?_ iha)
        show escSeqLen ((c :: rest).take m) = some ((c :: rest).take m).length
        have htk := escSeqLen_take_of_some hm
        have hlen : ((c :: rest).take m).length = m := by
          simp
          omega
        rw [hlen]
        exact htk
    | none =>
      obtain ⟨ihf, iha, ihne⟩ := ih rest hrl
      rw [splitAnsi_cons_none hm]
      match hsp : splitAnsi rest with
      | [] => exact absurd hsp ihne
      | t :: ts =>
        rw [hsp] at ihf iha
        cases iha with
        | txt ht hts =>
          simp only [prependToHead]
          simp only [List.flatten_cons] at ihf
          refine ⟨?_, ?_, by simp⟩
          · simp only [List.flatten_cons, List.cons_append, ihf]
          · refine AltParts.txt (NoEsc.cons ?_ ht) hts
            cases hq : escSeqLen (c :: t) with
            | none => rfl
            | some k =>
              exfalso
              have h2 := escSeqLen_append_of_some ts.flatten hq
              rw [List.cons_append, ihf] at h2
              rw [hm] at h2
              exact Option.noConfusion h2

lemma splitAnsi_flatten (l : List Char) : (splitAnsi l).flatten = l :=
  (splitAnsi_spec_aux l.length l le_rfl).1

lemma splitAnsi_alt (l : List Char) : AltParts false (splitAnsi l) :=
  (splitAnsi_spec_aux l.length l le_rfl).2.1


lemma splitAnsi_vis_sum_aux : ∀ (n : Nat) (l : List Char), l.length ≤ n →
    ((splitAnsi l).map (fun p => (stripAnsi p).length)).sum = (stripAnsi l).length := by
  intro n
  induction n with
  | zero =>
    intro l hl
    have hnil : l = [] := List.length_eq_zero.mp (Nat.le_zero.mp hl)
    subst hnil
    simp [splitAnsi_nil, stripAnsi_nil]
  | succ n ih =>
    intro l hl
    match l with
    | [] => simp [splitAnsi_nil, stripAnsi_nil]
    | c :: rest =>
      have hrl : rest.length ≤ n := by simpa using hl
      cases hm : escSeqLen (c :: rest) with
      | some m =>
        have hm2 : 2 ≤ m := escSeqLen_two_le hm
        have hmlen : m ≤ rest.length + 1 := by
          have := escSeqLen_le_length hm
          simpa using this
        have hdroplen : (rest.drop (m - 1)).length ≤ n := by
          simp [List.length_drop]
          omega
        have hesc : stripAnsi ((c :: rest).take m) = [] := by
          apply stripAnsi_esc_eq_nil
          have hlen : ((c :: rest).take m).length = m := by
            simp
            omega
          rw [hlen]
          exact escSeqLen_take_of_some hm
        rw [splitAnsi_cons_some hm, stripAnsi_cons_some hm]
        simp only [List.map_cons, List.sum_cons, hesc, stripAnsi_nil,
          List.length_nil]
        rw [ih _ hdroplen]
        omega
      | none =>
        rw [splitAnsi_cons_none hm, stripAnsi_cons_none hm]
        obtain ⟨ihf, iha, ihne⟩ := splitAnsi_spec_aux rest.length rest le_rfl
        match hsp : splitAnsi rest with
        | [] => exact absurd hsp ihne
        | t :: ts =>
          rw [hsp] at ihf
          have hct : escSeqLen (c :: t) = none := by
            cases hq : escSeqLen (c :: t) with
            | none => rfl
            | some k =>
              exfalso
              have h2 := escSeqLen_append_of_some ts.flatten hq
              rw [List.cons_append] at h2
              simp only [List.flatten_cons] at ihf
              rw [ihf] at h2
              rw [hm] at h2
              exact Option.noConfusion h2
          have hsum := ih rest hrl
          rw [hsp] at hsum
          simp only [prependToHead, List.map_cons, List.sum_cons] at hsum ⊢
          rw [stripAnsi_cons_none hct]
          simp only [List.length_cons]
          omega

lemma splitAnsi_vis_sum (l : List Char) :
    ((splitAnsi l).map (fun p => (stripAnsi p).length)).sum = (stripAnsi l).length :=
  splitAnsi_vis_sum_aux l.length l le_rfl

/-- `MarkerSafe m`: no character of `m` is `ESC` or a CSI final byte.  Such a
string can neither start an escape sequence nor complete a dangling one, so
splicing it into a string leaves the surrounding parse unchanged.  The empty
string and the ellipsis `"..."` used by `Terminal.ellipsify` both qualify. -/
def MarkerSafe (m : List Char) : Prop :=
  ∀ c ∈ m, c ≠ '\x1b' ∧ isCsiFinal c = false

lemma not_fe_of_not_final {c : Char} (h : isCsiFinal c = false) : isEscFe c = false := by
  cases hfe : isEscFe c with
  | true => rw [isEscFe_final hfe] at h; exact Bool.noConfusion h
  | false => rfl

lemma ne_lbracket_of_not_final {c : Char} (h : isCsiFinal c = false) : c ≠ '[' := by
  intro he
  subst he
  exact Bool.noConfusion ((by decide : isCsiFinal '[' = true) ▸ h)

lemma takeWhile_append_of_dropWhile_ne (p : Char → Bool) {xs : List Char}
    (ys : List Char) (h : xs.dropWhile p ≠ []) :
    (xs ++ ys).takeWhile p = xs.takeWhile p := by
  rw [List.takeWhile_append]
  rw [if_neg]
  intro hlen
  apply h
  have hsum := congrArg List.length (List.takeWhile_append_dropWhile p xs)
  rw [List.length_append, hlen] at hsum
  have hz : (xs.dropWhile p).length = 0 := by omega
  exact List.length_eq_zero.mp hz

lemma dropWhile_append_of_ne (p : Char → Bool) {xs : List Char}
    (ys : List Char) (h : xs.dropWhile p ≠ []) :
    (xs ++ ys).dropWhile p = xs.dropWhile p ++ ys := by
  rw [List.dropWhile_append]
  rw [if_neg]
  simp [h]

/-- Dropping parameter or intermediate bytes from a safe-marker-plus-escapes
tail stays inside the marker (or stops right at the leading `ESC`). -/
lemma dropWhile_marker_suffix (p : Char → Bool) (hpesc : p '\x1b' = false)
    (ins E : List Char) (hE : E = [] ∨ E.head? = some '\x1b') :
    ∃ u, (∀ c ∈ u, c ∈ ins) ∧ (ins ++ E).dropWhile p = u ++ E := by
  cases hd : ins.dropWhile p with
  | nil =>
    refine ⟨[], by simp, ?_⟩
    have hall : ∀ c ∈ ins, p c := List.dropWhile_eq_nil_iff.mp hd
    rw [List.dropWhile_append_of_pos hall]
    cases hE with
    | inl h => subst h; simp
    | inr h =>
      match E, h with
      | e0 :: E', h =>
        have he : e0 = '\x1b' := by simpa using h
        subst he
        simp [List.dropWhile_cons, hpesc]
  | cons d t =>
    refine ⟨d :: t, ?_, ?_⟩
    · intro c hc
      rw [← hd] at hc
      exact (List.dropWhile_sublist p).mem hc
    · rw [dropWhile_append_of_ne p E (by simp [hd]), hd]

/-- The head of a `MarkerSafe`-prefixed escape tail is never a CSI final byte. -/
lemma marker_head_not_final {ins E : List Char} (hins : MarkerSafe ins)
    (hE : E = [] ∨ E.head? = some '\x1b') (u : List Char) (hu : ∀ c ∈ u, c ∈ ins) :
    u ++ E = [] ∨ ∃ c t, u ++ E = c :: t ∧ isCsiFinal c = false := by
  match u with
  | c :: t =>
    exact Or.inr ⟨c, t ++ E, by simp, (hins c (hu c (by simp))).2⟩
  | [] =>
    cases hE with
    | inl h => subst h; exact Or.inl rfl
    | inr h =>
      match E with
      | e :: E' =>
        have he : e = '\x1b' := by simpa using h
        exact Or.inr ⟨e, E', by simp, by rw [he]; decide⟩

/-- Hard direction of inertness: a match found in `a ++ marker ++ escapes`
already lay entirely inside `a`. -/
lemma escSeqLen_of_append_inert {ins E : List Char} (hins : MarkerSafe ins)
    (hE : E = [] ∨ E.head? = some '\x1b') :
    ∀ {a : List Char}, a ≠ [] → ∀ {n : Nat},
      escSeqLen (a ++ (ins ++ E)) = some n → escSeqLen a = some n := by
  intro a ha n h
  have hbshape := marker_head_not_final hins hE ins (fun c hc => hc)
  match a, ha with
  | [a0], _ =>
    exfalso
    by_cases h0 : a0 = '\x1b'
    · subst h0
      rcases hbshape with hnil | ⟨b0, b', heq, hbf⟩
      · rw [show [('\x1b' : Char)] ++ (ins ++ E) = '\x1b' :: (ins ++ E) from rfl,
          hnil] at h
        rw [escSeqLen_single] at h
        exact Option.noConfusion h
      · rw [show [('\x1b' : Char)] ++ (ins ++ E) = '\x1b' :: (ins ++ E) from rfl,
          heq] at h
        rw [escSeqLen_esc_other b' (not_fe_of_not_final hbf)
          (ne_lbracket_of_not_final hbf)] at h
        exact Option.noConfusion h
    · rw [show [a0] ++ (ins ++ E) = a0 :: (ins ++ E) from rfl,
        escSeqLen_not_esc _ h0] at h
      exact Option.noConfusion h
  | a0 :: a1 :: a3, _ =>
    rw [show (a0 :: a1 :: a3) ++ (ins ++ E) = a0 :: a1 :: (a3 ++ (ins ++ E)) from rfl] at h
    by_cases h0 : a0 = '\x1b'
    · subst h0
      by_cases h1 : isEscFe a1 = true
      · rw [escSeqLen_fe _ h1] at h
        rw [escSeqLen_fe _ h1]
        exact h
      · by_cases h2 : a1 = '['
        · subst h2
          rw [escSeqLen_csi] at h
          rw [escSeqLen_csi]
          cases hq : a3.dropWhile isCsiParam with
          | nil =>
            exfalso
            have hallP : ∀ c ∈ a3, isCsiParam c := List.dropWhile_eq_nil_iff.mp hq
            rw [List.dropWhile_append_of_pos hallP] at h
            obtain ⟨u1, hu1, hb1⟩ :=
              dropWhile_marker_suffix isCsiParam (by decide) ins E hE
            rw [hb1] at h
            obtain ⟨u2, hu2, hb2⟩ :=
              dropWhile_marker_suffix isCsiInter (by decide) u1 E hE
            rw [hb2] at h
            rcases marker_head_not_final hins hE u2
                (fun c hc => hu1 c (hu2 c hc)) with hnil | ⟨c, t, heq, hcf⟩
            · rw [hnil] at h
              simp at h
            · rw [heq] at h
              simp [hcf] at h
          | cons d t' =>
            have hqne : a3.dropWhile isCsiParam ≠ [] := by simp [hq]
            rw [dropWhile_append_of_ne _ _ hqne] at h
            rw [takeWhile_append_of_dropWhile_ne _ _ hqne] at h
            rw [hq] at h
            cases hq2 : (d :: t').dropWhile isCsiInter with
            | nil =>
              exfalso
              have hallI : ∀ c ∈ d :: t', isCsiInter c := List.dropWhile_eq_nil_iff.mp hq2
              rw [List.dropWhile_append_of_pos hallI] at h
              obtain ⟨u1, hu1, hb1⟩ :=
                dropWhile_marker_suffix isCsiInter (by decide) ins E hE
              rw [hb1] at h
              rcases marker_head_not_final hins hE u1 hu1 with hnil | ⟨c, t, heq, hcf⟩
              · rw [hnil] at h
                simp at h
              · rw [heq] at h
                simp [hcf] at h
            | cons f t2 =>
              have hq2ne : (d :: t').dropWhile isCsiInter ≠ [] := by simp [hq2]
              rw [dropWhile_append_of_ne _ _ hq2ne] at h
              rw [takeWhile_append_of_dropWhile_ne _ _ hq2ne] at h
              rw [hq2] at h
              rw [List.cons_append] at h
              by_cases hf : isCsiFinal f = true
              · simp only [hf, if_true] at h ⊢
                exact h
              · simp [hf] at h
        · rw [escSeqLen_esc_other _ (by simpa using h1) h2] at h
          exact Option.noConfusion h
    · rw [escSeqLen_not_esc _ h0] at h
      exact Option.noConfusion h

/-- Inertness: appending a safe marker followed by complete escape material
does not change the head match of the scanner. -/
lemma escSeqLen_append_inert {ins E : List Char} (hins : MarkerSafe ins)
    (hE : E = [] ∨ E.head? = some '\x1b') {a : List Char} (ha : a ≠ []) :
    escSeqLen (a ++ (ins ++ E)) = escSeqLen a := by
  cases hc : escSeqLen a with
  | some n => exact escSeqLen_append_of_some _ hc
  | none =>
    cases hc2 : escSeqLen (a ++ (ins ++ E)) with
    | none => rfl
    | some n =>
      exfalso
      have := escSeqLen_of_append_inert hins hE ha hc2
      rw [hc] at this
      exact Option.noConfusion this

/-- The scanner distributes over an inert tail: the marker passes through
verbatim and the escape material strips independently. -/
lemma stripAnsi_append_inert {ins E : List Char} (hins : MarkerSafe ins)
    (hE : E = [] ∨ E.head? = some '\x1b') :
    ∀ (a : List Char), stripAnsi (a ++ (ins ++ E)) = stripAnsi a ++ ins ++ stripAnsi E := by
  suffices hs : ∀ (n : Nat) (a : List Char), a.length ≤ n →
      stripAnsi (a ++ (ins ++ E)) = stripAnsi a ++ ins ++ stripAnsi E by
    exact fun a => hs a.length a le_rfl
  intro n
  induction n with
  | zero =>
    intro a hl
    have hnil : a = [] := List.length_eq_zero.mp (Nat.le_zero.mp hl)
    subst hnil
    simp only [List.nil_append, stripAnsi_nil]
    exact stripAnsi_noesc_append (fun c hc => (hins c hc).1) E
  | succ n ih =>
    intro a hl
    match a with
    | [] =>
      simp only [List.nil_append, stripAnsi_nil]
      exact stripAnsi_noesc_append (fun c hc => (hins c hc).1) E
    | c :: a' =>
      have hrl : a'.length ≤ n := by simpa using hl
      have hin : escSeqLen ((c :: a') ++ (ins ++ E)) = escSeqLen (c :: a') :=
        escSeqLen_append_inert hins hE (by simp)
      rw [List.cons_append] at hin
      cases hm : escSeqLen (c :: a') with
      | some m =>
        rw [hm] at hin
        rw [List.cons_append, stripAnsi_cons_some hin, stripAnsi_cons_some hm]
        have hmlen : m ≤ a'.length + 1 := by
          have := escSeqLen_le_length hm
          simpa using this
        have hd : (a' ++ (ins ++ E)).drop (m - 1) = a'.drop (m - 1) ++ (ins ++ E) :=
          List.drop_append_of_le_length (by omega)
        rw [hd]
        apply ih
        simp only [List.length_drop]
        omega
      | none =>
        rw [hm] at hin
        rw [List.cons_append, stripAnsi_cons_none hin, stripAnsi_cons_none hm]
        rw [ih a' hrl]
        rfl

/-- Special case: appending material that is empty or starts with `ESC`
splits the scan. -/
lemma stripAnsi_append_escHead {X : List Char}
    (hX : X = [] ∨ X.head? = some '\x1b') (a : List Char) :
    stripAnsi (a ++ X) = stripAnsi a ++ stripAnsi X := by
  have h : stripAnsi (a ++ ([] ++ X)) = stripAnsi a ++ [] ++ stripAnsi X :=
    stripAnsi_append_inert (fun c hc => absurd hc (by simp)) hX a
  simpa using h


/-- Python slice `l[:k]`: nonnegative `k` keeps the first `k` characters,
negative `k` drops the last `-k` (clamped at the ends). -/
def pySliceTo (l : List Char) (k : Int) : List Char :=
  if 0 ≤ k then l.take k.toNat else l.take ((l.length + k).toNat)

/-- Python slice `l[k:]`: nonnegative `k` drops the first `k` characters,
negative `k` keeps the last `-k` (clamped at the ends). -/
def pySliceFrom (l : List Char) (k : Int) : List Char :=
  if 0 ≤ k then l.drop k.toNat else l.drop ((l.length + k).toNat)

/-- Python `str.isspace` character class (the whitespace removed by
`str.strip()`). -/
def isPySpace (c : Char) : Bool :=
  (0x09 ≤ c.toNat && c.toNat ≤ 0x0D) || (0x1C ≤ c.toNat && c.toNat ≤ 0x20) ||
  c.toNat = 0x85 || c.toNat = 0xA0 || c.toNat = 0x1680 ||
  (0x2000 ≤ c.toNat && c.toNat ≤ 0x200A) || c.toNat = 0x2028 ||
  c.toNat = 0x2029 || c.toNat = 0x202F || c.toNat = 0x205F || c.toNat = 0x3000

/-- Python `str.strip()`: remove leading and trailing whitespace. -/
def pyStrip (s : String) : String :=
  ⟨((s.data.dropWhile isPySpace).reverse.dropWhile isPySpace).reverse⟩

/-- Python `s * n` for a string and an integer: `n ≤ 0` yields the empty
string. -/
def pyRepeat (s : String) (n : Int) : String :=
  ⟨(List.replicate n.toNat s.data).flatten⟩

namespace Terminal

/-- `Terminal.len_on_display`: length of the string after `re.sub` removes all
ANSI escape codes. -/
def len_on_display (string : String) : Nat := (stripAnsi string.data).length

/-- The `for part in splitted` loop of `Terminal.cut`: walks the parts of the
regex split accumulating visible length `current_len` against `target_len`,
keeping zero-width parts, skipping visible parts once the target is reached,
truncating the part that crosses the target with a Python slice, and splicing
`insert_end` in right after the target is reached. -/
def cutGo (target_len : Int) (insert_end : List Char) :
    Int → List (List Char) → List (List Char)
  | _, [] => []
  | current_len, part :: parts =>
    let part_len := (stripAnsi part).length
    if part_len = 0 then
      part :: cutGo target_len insert_end current_len parts
    else if current_len = target_len then
      cutGo target_len insert_end current_len parts
    else
      let new_len : Int := current_len + part_len
      if new_len ≤ target_len then
        if new_len = target_len then
          part :: insert_end :: cutGo target_len insert_end new_len parts
        else
          part :: cutGo target_len insert_end new_len parts
      else
        let cut_part := pySliceTo part (-current_len + target_len)
        cut_part :: insert_end :: cutGo target_len insert_end
          (current_len + ((stripAnsi cut_part).length : Int)) parts

/-- `Terminal.cut`: cut `excess` visible characters from the end of `string`,
preserving all ANSI escape sequences and splicing `insert_end` in after the
last retained visible character. -/
def cut (string : String) (excess : Int) (insert_end : String := "") : String :=
  let splitted := splitAnsi string.data
  let target_len : Int := (len_on_display string : Int) - excess
  ⟨(cutGo target_len insert_end.data 0 splitted).flatten⟩

/-- `Terminal.ellipsify`: cap a string at visible length `length`, appending an
ellipsis; without `preserve` the string is stripped first. -/
def ellipsify (string : String) (length : Int) (preserve : Bool := false) : String :=
  if length ≤ 0 then ""
  else
    let string := if preserve then string else pyStrip string
    let string_len : Int := len_on_display string
    if string_len ≤ length then string
    else
      let ellipsis := "..."
      let ellipsis_len : Int := ellipsis.length
      if ellipsis_len ≥ length then ⟨pySliceFrom ellipsis.data (ellipsis_len - length)⟩
      else cut string (string_len - length + ellipsis_len) ellipsis

end Terminal

namespace Colors

/-- `Colors.bold` of `main.py`: wrap in SGR bold on / bold off. -/
def bold (x : String) : String := "\x1b[1m" ++ x ++ "\x1b[22m"

/-- `Colors.invert` of `main.py`: wrap in SGR invert on / invert off. -/
def invert (x : String) : String := "\x1b[7m" ++ x ++ "\x1b[27m"

end Colors

namespace Terminal

/-- `Terminal.header` of `terminal.py`: the `to_print` line built for a header;
the terminal width `Terminal.size()[0]` is passed as a parameter and the
decoration tuple has `len(decoration) = 6`. -/
def header (string : String) (width : Int)
    (fn_color_invert fn_color_bold : String → String) : String :=
  let remaining_width : Int := width - 6
  let string := ellipsify (pyStrip string) remaining_width
  let remaining_width : Int := remaining_width - (len_on_display string : Int)
  let remaining_width_half : Int := Int.fdiv remaining_width 2
  "\u250f" ++ pyRepeat "\u2501" remaining_width_half ++ "\u252b" ++
    fn_color_invert (" " ++ fn_color_bold string ++ " ") ++ "\u2523" ++
    pyRepeat "\u2501" (remaining_width - remaining_width_half) ++ "\u2513"

/-- The header line as printed by `main.py`'s menu loop: `Terminal.header`
with `Colors.invert` and `Colors.bold`. -/
def headerLine (string : String) (width : Int) : String :=
  header string width Colors.invert Colors.bold

/-- `Terminal.calculate_row_offset`: negative offset pulling a position back on
screen when `additional_rows` would push it past the bottom; terminal height
`Terminal.size()[1]` is passed as a parameter. -/
def calculate_row_offset (terminal_size_rows : Int) (initial_position : Int × Int)
    (additional_rows : Int := 0) : Int :=
  let new_row := initial_position.2 + additional_rows
  if new_row > terminal_size_rows then terminal_size_rows - new_row else 0

/-- `Terminal.cursor_set_position`: the absolute cursor-move escape sequence
printed for a position `(column, row)`, with columns and rows clamped to a
minimum of 1 and the row offset of `calculate_row_offset` applied. -/
def cursor_set_position (terminal_size_rows : Int) (position : Int × Int)
    (additional_rows : Int := 0) : String :=
  let column := if position.1 ≤ 0 then 1 else position.1
  let row := if position.2 ≤ 0 then 1 else position.2
  let row_offset := calculate_row_offset terminal_size_rows position additional_rows
  "\x1b[" ++ toString (row + row_offset) ++ ";" ++ toString column ++ "H"

/-- The cursor-move escape sequences emitted by `Terminal.capture_input`, in
order: the move to the input position before `input()` and the move back to
the position saved by the initial `cursor_get_position` query (`saved_pos`).
The query itself and the blocking read perform no cursor movement of their
own, so this list is the call's entire effect on the cursor. -/
def capture_input_moves (terminal_size_rows : Int) (saved_pos input_pos : Int × Int)
    (additional_rows : Int := 0) : List String :=
  [cursor_set_position terminal_size_rows input_pos additional_rows,
   cursor_set_position terminal_size_rows saved_pos]

end Terminal

/-- The tail of the regex `.*\[(?P<row>\d*);(?P<column>\d*)R` applied at a
fixed position: a literal `[`, a possibly empty digit run (group `row`),
a `;`, a possibly empty digit run (group `column`), then a literal `R`.
ASCII digits realise the `\d` class. -/
def csiReportAt : List Char → Option (String × String)
  | '[' :: rest =>
    let row := rest.takeWhile Char.isDigit
    let rest1 := rest.dropWhile Char.isDigit
    match rest1 with
    | ';' :: rest2 =>
      let col := rest2.takeWhile Char.isDigit
      let rest3 := rest2.dropWhile Char.isDigit
      match rest3 with
      | 'R' :: _ => some (⟨row⟩, ⟨col⟩)
      | _ => none
    | _ => none
  | _ => none

/-- `re.match(r".*\[(?P<row>\d*);(?P<column>\d*)R", s)`: the greedy `.*`
prefers the latest feasible start for the bracketed tail and cannot cross a
newline. -/
def reMatchReport : List Char → Option (String × String)
  | [] => none
  | c :: rest =>
    if c = '\n' then csiReportAt (c :: rest)
    else (reMatchReport rest).orElse (fun _ => csiReportAt (c :: rest))

/-- Python `int()` applied to a regex `\d*` group: raises (returns `none`) on
the empty string, otherwise the decimal value. -/
def pyIntOfDigits (s : String) : Option Nat :=
  if s.data = [] then none
  else if s.data.all Char.isDigit then
    some (s.data.foldl (fun a c => 10 * a + (c.toNat - 48)) 0)
  else none

/-- Parsing stage of `Terminal.cursor_get_position`: match the device status
report against the cursor-report regex; no match yields the default `(1, 1)`,
otherwise `int()` is applied to the `column` and `row` groups and a
`ValueError` raise is modelled as `Except.error`. -/
def cursorReportParse (device_status_report : String) : Except String (Int × Int) :=
  match reMatchReport device_status_report.data with
  | none => Except.ok (1, 1)
  | some (rowStr, colStr) =>
    match pyIntOfDigits colStr, pyIntOfDigits rowStr with
    | some column, some row => Except.ok ((column : Int), (row : Int))
    | _, _ => Except.error "ValueError"


/-- Total visible length of a list of parts. -/
def visParts (ts : List (List Char)) : Nat :=
  (ts.map (fun p => (stripAnsi p).length)).sum

lemma visParts_nil : visParts [] = 0 := rfl

lemma visParts_cons (part : List Char) (parts : List (List Char)) :
    visParts (part :: parts) = (stripAnsi part).length + visParts parts := by
  simp [visParts]

lemma visParts_splitAnsi (l : List Char) :
    visParts (splitAnsi l) = (stripAnsi l).length :=
  splitAnsi_vis_sum l

namespace Terminal

lemma cutGo_nil {target c : Int} {ins : List Char} : cutGo target ins c [] = [] := rfl

lemma cutGo_cons_zero {target c : Int} {ins part : List Char}
    {parts : List (List Char)} (h : (stripAnsi part).length = 0) :
    cutGo target ins c (part :: parts) = part :: cutGo target ins c parts := by
  simp [cutGo, h]

lemma cutGo_cons_done {target c : Int} {ins part : List Char}
    {parts : List (List Char)} (h : (stripAnsi part).length ≠ 0) (hc : c = target) :
    cutGo target ins c (part :: parts) = cutGo target ins c parts := by
  simp [cutGo, h, hc]

lemma cutGo_cons_fill {target c : Int} {ins part : List Char}
    {parts : List (List Char)} (h : (stripAnsi part).length ≠ 0) (hc : c ≠ target)
    (heq : c + ((stripAnsi part).length : Int) = target) :
    cutGo target ins c (part :: parts) =
      part :: ins :: cutGo target ins (c + ((stripAnsi part).length : Int)) parts := by
  simp [cutGo, h, hc, heq]

lemma cutGo_cons_keep {target c : Int} {ins part : List Char}
    {parts : List (List Char)} (h : (stripAnsi part).length ≠ 0) (hc : c ≠ target)
    (hle : c + ((stripAnsi part).length : Int) ≤ target)
    (hne : c + ((stripAnsi part).length : Int) ≠ target) :
    cutGo target ins c (part :: parts) =
      part :: cutGo target ins (c + ((stripAnsi part).length : Int)) parts := by
  simp [cutGo, h, hc, hle, hne]

lemma cutGo_cons_slice {target c : Int} {ins part : List Char}
    {parts : List (List Char)} (h : (stripAnsi part).length ≠ 0) (hc : c ≠ target)
    (hgt : ¬ c + ((stripAnsi part).length : Int) ≤ target) :
    cutGo target ins c (part :: parts) =
      pySliceTo part (-c + target) :: ins ::
        cutGo target ins
          (c + ((stripAnsi (pySliceTo part (-c + target))).length : Int)) parts := by
  simp [cutGo, h, hc, hgt]

/-- When the target exceeds the total visible length, the loop keeps every
part verbatim and never inserts the marker. -/
lemma cutGo_all {target : Int} {ins : List Char} :
    ∀ (ts : List (List Char)) (c : Int), c + (visParts ts : Int) < target →
      cutGo target ins c ts = ts := by
  intro ts
  induction ts with
  | nil => intro c _; rfl
  | cons part parts ih =>
    intro c h
    rw [visParts_cons] at h
    push_cast at h
    by_cases hz : (stripAnsi part).length = 0
    · rw [cutGo_cons_zero hz, ih c (by omega)]
    · have hvis : (1 : Int) ≤ ((stripAnsi part).length : Int) := by
        have : 1 ≤ (stripAnsi part).length := Nat.one_le_iff_ne_zero.mpr hz
        exact_mod_cast this
      have hvp : (0 : Int) ≤ (visParts parts : Int) := Int.ofNat_nonneg _
      have hc : c ≠ target := by omega
      have hle : c + ((stripAnsi part).length : Int) ≤ target := by omega
      have hne : c + ((stripAnsi part).length : Int) ≠ target := by omega
      rw [cutGo_cons_keep hz hc hle hne, ih _ (by omega)]

/-- Once the accumulated length equals the target, only zero-width parts
survive and no marker is ever inserted. -/
lemma cutGo_at_target {target : Int} {ins : List Char} :
    ∀ (ts : List (List Char)),
      cutGo target ins target ts = ts.filter (fun p => (stripAnsi p).length == 0) := by
  intro ts
  induction ts with
  | nil => rfl
  | cons part parts ih =>
    by_cases hz : (stripAnsi part).length = 0
    · rw [cutGo_cons_zero hz, ih]
      simp [List.filter_cons, hz]
    · rw [cutGo_cons_done hz rfl, ih]
      simp [List.filter_cons, hz]

end Terminal

lemma escSeqLen_head_esc {l : List Char} {n : Nat} (h : escSeqLen l = some n) :
    l.head? = some '\x1b' := by
  have hm := escSeqLen_eq_some_iff.mp h
  cases hm <;> rfl

lemma escSeqLen_last_final {l : List Char} {n : Nat} (h : escSeqLen l = some n)
    (hn : n = l.length) : ∃ lc, l.getLast? = some lc ∧ isCsiFinal lc = true := by
  have hm := escSeqLen_eq_some_iff.mp h
  cases hm with
  | fe c1 rest h1 =>
    have hr : rest = [] := by
      apply List.length_eq_zero.mp
      simp only [List.length_cons] at hn
      omega
    subst hr
    exact ⟨c1, rfl, isEscFe_final h1⟩
  | csi ps ds f rest hps hds hf =>
    have hr : rest = [] := by
      apply List.length_eq_zero.mp
      simp only [List.length_cons, List.length_append] at hn
      omega
    subst hr
    refine ⟨f, ?_, hf⟩
    rw [show ('\x1b' :: '[' :: (ps ++ (ds ++ [f]))) =
      ('\x1b' :: '[' :: (ps ++ ds)) ++ [f] by simp]
    exact List.getLast?_concat _

lemma CompleteEsc.head_esc {e : List Char} (he : CompleteEsc e) :
    e.head? = some '\x1b' := escSeqLen_head_esc he

lemma CompleteEsc.ne_nil {e : List Char} (he : CompleteEsc e) : e ≠ [] := by
  intro h
  have hh := he.head_esc
  rw [h] at hh
  exact Option.noConfusion hh

lemma CompleteEsc.vis_zero {e : List Char} (he : CompleteEsc e) :
    (stripAnsi e).length = 0 := by
  rw [stripAnsi_esc_eq_nil he]
  rfl

lemma CompleteEsc.last_final {e : List Char} (he : CompleteEsc e) :
    ∃ lc, e.getLast? = some lc ∧ isCsiFinal lc = true :=
  escSeqLen_last_final he rfl


/-- The zero-width parts surviving `cutGo` past the target flatten to escape
material: it strips to nothing, starts with `ESC` (or is empty), and ends in
a CSI final byte (or is empty). -/
lemma filtered_flatten_props :
    ∀ {b : Bool} {ts : List (List Char)}, AltParts b ts →
      stripAnsi ((ts.filter (fun p => (stripAnsi p).length == 0)).flatten) = [] ∧
      ((ts.filter (fun p => (stripAnsi p).length == 0)).flatten = [] ∨
        ((ts.filter (fun p => (stripAnsi p).length == 0)).flatten).head? = some '\x1b') ∧
      ((ts.filter (fun p => (stripAnsi p).length == 0)).flatten = [] ∨
        ∃ lc, ((ts.filter (fun p => (stripAnsi p).length == 0)).flatten).getLast? = some lc ∧
          isCsiFinal lc = true) := by
  intro b ts halt
  induction halt with
  | nil b => simp [stripAnsi_nil]
  | @txt t ts2 ht hts ih =>
    by_cases hz : (stripAnsi t).length = 0
    · have htnil : t = [] := by
        rw [ht.stripAnsi_eq] at hz
        exact List.length_eq_zero.mp hz
      subst htnil
      simpa [List.filter_cons, stripAnsi_nil] using ih
    · simpa [List.filter_cons, hz] using ih
  | @esc e ts2 he hts ih =>
    have hz : ((stripAnsi e).length == 0) = true := by
      simp [he.vis_zero]
    obtain ⟨ih1, ih2, ih3⟩ := ih
    simp only [List.filter_cons, hz, if_true, List.flatten_cons]
    refine ⟨?_, ?_, ?_⟩
    · rw [stripAnsi_esc_append he, ih1]
    · right
      match e, he.ne_nil with
      | e0 :: e', _ =>
        have hh := he.head_esc
        simpa using hh
    · right
      cases hE : (ts2.filter (fun p => (stripAnsi p).length == 0)).flatten with
      | nil =>
        rw [List.append_nil]
        exact he.last_final
      | cons x xs =>
        rw [List.getLast?_append_of_ne_nil _ (by simp)]
        rcases ih3 with h | h
        · rw [hE] at h
          exact absurd h (by simp)
        · rw [hE] at h
          exact h

namespace Terminal

/-- Structure of the cut loop output when the target lies strictly between the
accumulated length and the total: the output is a nonempty prefix `A` of the
input (ending exactly at the target's visible column), then the marker, then
trailing escape material `E`; its visible content is that of `A` plus the
marker verbatim. -/
lemma cutGo_marker {ins : List Char} (hins : MarkerSafe ins) (target : Int) :
    ∀ (ts : List (List Char)) (b : Bool), AltParts b ts → ∀ (c : Int), 0 ≤ c →
      c < target → target ≤ c + (visParts ts : Int) →
      ∃ A E, (cutGo target ins c ts).flatten = A ++ ins ++ E ∧
        A ≠ [] ∧ (∃ d, A ++ d = ts.flatten) ∧
        stripAnsi (A ++ ins ++ E) = stripAnsi A ++ ins ∧
        ((stripAnsi A).length : Int) = target - c ∧
        (E = [] ∨ ∃ lc, E.getLast? = some lc ∧ isCsiFinal lc = true) := by
  intro ts
  induction ts with
  | nil =>
    intro b _ c _ hlt hle
    exfalso
    rw [visParts_nil] at hle
    simp at hle
    omega
  | cons part parts ih =>
    intro b halt c h0 hlt hle
    rw [visParts_cons] at hle
    push_cast at hle
    cases halt with
    | esc he hts =>
      have hz : (stripAnsi part).length = 0 := he.vis_zero
      have hstep := stripAnsi_esc_append he
      rw [cutGo_cons_zero hz]
      obtain ⟨A', E, h1, h2, ⟨d, h3⟩, h4, h5, h6⟩ :=
        ih false hts c h0 hlt (by rw [hz] at hle; simpa using hle)
      refine ⟨part ++ A', E, ?_, ?_, ⟨d, ?_⟩, ?_, ?_, h6⟩
      · rw [List.flatten_cons, h1]
        simp [List.append_assoc]
      · simp [he.ne_nil]
      · rw [List.flatten_cons, List.append_assoc, h3]
      · rw [show (part ++ A') ++ ins ++ E = part ++ (A' ++ ins ++ E) from by
          simp [List.append_assoc]]
        rw [hstep (A' ++ ins ++ E), hstep A', h4]
      · rw [hstep A']
        exact h5
    | txt ht hts =>
      by_cases hz : (stripAnsi part).length = 0
      · have hpnil : part = [] := by
          rw [ht.stripAnsi_eq] at hz
          exact List.length_eq_zero.mp hz
        subst hpnil
        rw [cutGo_cons_zero (by rw [stripAnsi_nil]; rfl)]
        obtain ⟨A', E, h1, h2, ⟨d, h3⟩, h4, h5, h6⟩ :=
          ih true hts c h0 hlt (by rw [stripAnsi_nil] at hle; simpa using hle)
        refine ⟨A', E, ?_, h2, ⟨d, ?_⟩, h4, h5, h6⟩
        · rw [List.flatten_cons, List.nil_append, h1]
        · rw [List.flatten_cons, List.nil_append, h3]
      · have hcne : c ≠ target := by omega
        have hplen1 : (1 : Int) ≤ ((stripAnsi part).length : Int) := by
          have h1 : 1 ≤ (stripAnsi part).length := Nat.one_le_iff_ne_zero.mpr hz
          exact_mod_cast h1
        by_cases hle2 : c + ((stripAnsi part).length : Int) ≤ target
        · by_cases heq : c + ((stripAnsi part).length : Int) = target
          · -- the part fills the budget exactly: marker right after it
            rw [cutGo_cons_fill hz hcne heq, heq, cutGo_at_target]
            obtain ⟨hE1, hE2, hE3⟩ := filtered_flatten_props hts
            refine ⟨part, (parts.filter (fun p => (stripAnsi p).length == 0)).flatten,
              ?_, ?_, ⟨parts.flatten, ?_⟩, ?_, ?_, hE3⟩
            · simp [List.append_assoc]
            · intro hp
              rw [hp, stripAnsi_nil] at hz
              exact hz rfl
            · rw [List.flatten_cons]
            · rw [List.append_assoc, stripAnsi_append_inert hins hE2 part, hE1,
                List.append_nil]
            · omega
          · -- the part is kept whole and the budget is still open
            rw [cutGo_cons_keep hz hcne hle2 heq]
            have hlt2 : c + ((stripAnsi part).length : Int) < target := by omega
            have hvpos : (0:Int) ≤ c + ((stripAnsi part).length : Int) := by omega
            obtain ⟨A', E, h1, h2, ⟨d, h3⟩, h4, h5, h6⟩ :=
              ih true hts _ hvpos hlt2 (by omega)
            -- the next input part is a complete escape, so A' starts with ESC
            have hpartsne : parts ≠ [] := by
              intro hp
              subst hp
              rw [visParts_nil] at hle
              simp at hle
              omega
            have hA'head : ∃ A2, A' = '\x1b' :: A2 := by
              cases hts with
              | nil => exact absurd rfl hpartsne
              | esc he2 hts2 =>
                rename_i e parts2
                match A', h2 with
                | a0 :: A2, _ =>
                  refine ⟨A2, ?_⟩
                  rw [List.flatten_cons] at h3
                  match e, he2.ne_nil, he2.head_esc with
                  | e0 :: e2, _, hhd =>
                    have he0 : e0 = '\x1b' := by simpa using hhd
                    have : a0 = e0 := by
                      have := congrArg List.head? h3
                      simpa using this
                    rw [this, he0]
            obtain ⟨A2, hA2⟩ := hA'head
            have hXhead : (A' ++ ins ++ E) = [] ∨
                (A' ++ ins ++ E).head? = some '\x1b' := by
              right
              rw [hA2]
              rfl
            have hA'head2 : (A' : List Char) = [] ∨ A'.head? = some '\x1b' := by
              right
              rw [hA2]
              rfl
            refine ⟨part ++ A', E, ?_, ?_, ⟨d, ?_⟩, ?_, ?_, h6⟩
            · rw [List.flatten_cons, h1]
              simp [List.append_assoc]
            · intro hp
              have hpn : part = [] := (List.append_eq_nil.mp hp).1
              rw [hpn, stripAnsi_nil] at hz
              exact hz rfl
            · rw [List.flatten_cons, List.append_assoc, h3]
            · rw [show (part ++ A') ++ ins ++ E = part ++ (A' ++ ins ++ E) from by
                simp [List.append_assoc]]
              rw [stripAnsi_append_escHead hXhead part,
                stripAnsi_append_escHead hA'head2 part, h4]
              simp [List.append_assoc]
            · rw [stripAnsi_append_escHead hA'head2 part]
              rw [List.length_append]
              push_cast
              omega
        · -- the part crosses the budget: it is sliced at the boundary
          rw [cutGo_cons_slice hz hcne hle2]
          have hk0 : (0:Int) ≤ -c + target := by omega
          have hkp : -c + target < ((stripAnsi part).length : Int) := by omega
          have hslice : pySliceTo part (-c + target) = part.take (-c + target).toNat := by
            unfold pySliceTo
            rw [if_pos hk0]
          have hsliceN : NoEsc (part.take (-c + target).toNat) :=
            ht.take (-c + target).toNat
          have hplen : ((stripAnsi part).length : Int) = (part.length : Int) := by
            rw [ht.stripAnsi_eq]
          have hslicelen : (stripAnsi (pySliceTo part (-c + target))).length =
              (-c + target).toNat := by
            rw [hslice, hsliceN.stripAnsi_eq, List.length_take]
            have hlt3 : (-c + target).toNat < part.length := by omega
            omega
          have hcur : c + ((stripAnsi (pySliceTo part (-c + target))).length : Int) =
              target := by
            rw [hslicelen]
            omega
          rw [hcur, cutGo_at_target]
          obtain ⟨hE1, hE2, hE3⟩ := filtered_flatten_props hts
          refine ⟨pySliceTo part (-c + target),
            (parts.filter (fun p => (stripAnsi p).length == 0)).flatten,
            ?_, ?_, ⟨part.drop (-c + target).toNat ++ parts.flatten, ?_⟩, ?_, ?_, hE3⟩
          · simp [List.append_assoc]
          · intro hp
            rw [hp] at hslicelen
            simp [stripAnsi_nil] at hslicelen
            omega
          · rw [List.flatten_cons, hslice, ← List.append_assoc, List.take_append_drop]
          · rw [List.append_assoc,
              stripAnsi_append_inert hins hE2 (pySliceTo part (-c + target)), hE1,
              List.append_nil]
          · rw [hslicelen]
            omega

end Terminal

namespace Terminal

lemma cut_data (s : String) (excess : Int) (m : String) :
    (cut s excess m).data =
      (cutGo ((len_on_display s : Int) - excess) m.data 0 (splitAnsi s.data)).flatten := rfl

/-- With strictly negative excess the loop's target exceeds the total visible
length, so `cut` returns its input unchanged and never inserts the marker. -/
lemma cut_of_neg (s : String) (excess : Int) (m : String) (h : excess < 0) :
    cut s excess m = s := by
  apply String.ext
  rw [cut_data]
  rw [cutGo_all (splitAnsi s.data) 0 ?_]
  · exact splitAnsi_flatten s.data
  · rw [visParts_splitAnsi]
    show (0:Int) + ((len_on_display s : Nat) : Int) < (len_on_display s : Int) - excess
    omega

/-- Cut-level form of `cutGo_marker`: for `0 ≤ excess < visible length` the
result is a nonempty prefix `A` of the input reaching exactly the target
visible length, then the marker, then trailing escape material. -/
lemma cut_structure (s : String) (excess : Int) (m : String) (hm : MarkerSafe m.data)
    (h0 : 0 ≤ excess) (h1 : excess < (len_on_display s : Int)) :
    ∃ A E, (cut s excess m).data = A ++ m.data ++ E ∧ A ≠ [] ∧
      (∃ d, A ++ d = s.data) ∧
      stripAnsi ((cut s excess m).data) = stripAnsi A ++ m.data ∧
      ((stripAnsi A).length : Int) = (len_on_display s : Int) - excess ∧
      (E = [] ∨ ∃ lc, E.getLast? = some lc ∧ isCsiFinal lc = true) := by
  have halt := splitAnsi_alt s.data
  have h2 : (0:Int) < (len_on_display s : Int) - excess := by omega
  have h3 : (len_on_display s : Int) - excess ≤
      0 + (visParts (splitAnsi s.data) : Int) := by
    rw [visParts_splitAnsi]
    show _ ≤ (0:Int) + ((len_on_display s : Nat) : Int)
    omega
  obtain ⟨A, E, hc1, hc2, ⟨d, hc3⟩, hc4, hc5, hc6⟩ :=
    cutGo_marker hm ((len_on_display s : Int) - excess) (splitAnsi s.data)
      false halt 0 le_rfl h2 h3
  refine ⟨A, E, ?_, hc2, ⟨d, ?_⟩, ?_, ?_, hc6⟩
  · rw [cut_data]
    exact hc1
  · rw [hc3]
    exact splitAnsi_flatten s.data
  · rw [cut_data, hc1]
    exact hc4
  · rw [hc5]
    omega

/-- Visible length of a marker cut: the retained target length plus the
visible length of the marker (which, being `ESC`-free, is its raw length). -/
lemma cut_vis_marker (s : String) (excess : Int) (m : String)
    (hm : MarkerSafe m.data) (h0 : 0 ≤ excess)
    (h1 : excess < (len_on_display s : Int)) :
    (len_on_display (cut s excess m) : Int) =
      (len_on_display s : Int) - excess + m.length := by
  obtain ⟨A, E, hc1, _, _, hc4, hc5, _⟩ := cut_structure s excess m hm h0 h1
  show ((stripAnsi (cut s excess m).data).length : Int) = _
  rw [hc4, List.length_append]
  have hml : m.length = m.data.length := rfl
  push_cast
  omega

/-- Cutting away the entire visible length leaves only escape material. -/
lemma cut_vis_full (s : String) (m : String) :
    len_on_display (cut s (len_on_display s : Int) m) = 0 := by
  show (stripAnsi (cut s (len_on_display s : Int) m).data).length = 0
  rw [cut_data]
  have ht : ((len_on_display s : Nat) : Int) - (len_on_display s : Int) = 0 := by omega
  rw [ht, show (0:Int) = ((0:Int)) from rfl]
  rw [cutGo_at_target]
  obtain ⟨hE1, _, _⟩ := filtered_flatten_props (splitAnsi_alt s.data)
  rw [hE1]
  rfl

end Terminal

lemma dropWhile_head_false (p : Char → Bool) :
    ∀ (l : List Char) {c : Char} {t : List Char}, l.dropWhile p = c :: t → p c = false := by
  intro l
  induction l with
  | nil =>
    intro c t h
    exact absurd h (by simp)
  | cons a l' ih =>
    intro c t h
    rw [List.dropWhile_cons] at h
    by_cases hp : p a
    · rw [if_pos hp] at h
      exact ih h
    · rw [if_neg hp] at h
      cases h
      simpa using hp

lemma pyStrip_data (s : String) :
    (pyStrip s).data = ((s.data.dropWhile isPySpace).reverse.dropWhile isPySpace).reverse := rfl

/-- A stripped string is empty or starts with a non-whitespace character. -/
lemma pyStrip_head (s : String) :
    (pyStrip s).data = [] ∨
      ∃ c t, (pyStrip s).data = c :: t ∧ isPySpace c = false := by
  cases hr : (pyStrip s).data with
  | nil => exact Or.inl rfl
  | cons c t =>
    right
    refine ⟨c, t, rfl, ?_⟩
    rw [pyStrip_data] at hr
    have hsuf : List.IsSuffix
        (((s.data.dropWhile isPySpace).reverse).dropWhile isPySpace)
        ((s.data.dropWhile isPySpace).reverse) := List.dropWhile_suffix isPySpace
    obtain ⟨u, hu⟩ := hsuf
    have hl1 : s.data.dropWhile isPySpace =
        ((s.data.dropWhile isPySpace).reverse.dropWhile isPySpace).reverse ++ u.reverse := by
      have h2 := congrArg List.reverse hu
      rw [List.reverse_append, List.reverse_reverse] at h2
      exact h2.symm
    rw [hr] at hl1
    rw [List.cons_append] at hl1
    exact dropWhile_head_false isPySpace s.data hl1

/-- A stripped string is empty or ends with a non-whitespace character. -/
lemma pyStrip_last (s : String) :
    (pyStrip s).data = [] ∨
      ∃ c, ((pyStrip s).data).getLast? = some c ∧ isPySpace c = false := by
  cases hr : (pyStrip s).data with
  | nil => exact Or.inl rfl
  | cons c0 t0 =>
    right
    have hrev : (pyStrip s).data.reverse =
        (s.data.dropWhile isPySpace).reverse.dropWhile isPySpace := by
      rw [pyStrip_data, List.reverse_reverse]
    cases hw : (s.data.dropWhile isPySpace).reverse.dropWhile isPySpace with
    | nil =>
      exfalso
      rw [hw] at hrev
      rw [hr] at hrev
      simp at hrev
    | cons c' t' =>
      refine ⟨c', ?_, dropWhile_head_false isPySpace _ hw⟩
      rw [hr] at hrev
      rw [← List.head?_reverse, hrev, hw]
      rfl

/-- A string whose ends are not whitespace is unchanged by `strip()`. -/
lemma pyStrip_eq_self {s : String}
    (h1 : s.data = [] ∨ ∃ c t, s.data = c :: t ∧ isPySpace c = false)
    (h2 : s.data = [] ∨ ∃ c, s.data.getLast? = some c ∧ isPySpace c = false) :
    pyStrip s = s := by
  apply String.ext
  rw [pyStrip_data]
  have hd : s.data.dropWhile isPySpace = s.data := by
    rcases h1 with h | ⟨c, t, heq, hc⟩
    · rw [h]
      rfl
    · rw [heq]
      simp [List.dropWhile_cons, hc]
  rw [hd]
  have hd2 : s.data.reverse.dropWhile isPySpace = s.data.reverse := by
    rcases h2 with h | ⟨c, heq, hc⟩
    · rw [h]
      rfl
    · match hrev : s.data.reverse with
      | [] => rfl
      | c' :: t' =>
        have hcc : c' = c := by
          have hh := List.head?_reverse s.data
          rw [hrev, heq] at hh
          simpa using hh
        simp [List.dropWhile_cons, hcc, hc]
  rw [hd2, List.reverse_reverse]

lemma pyStrip_idem (s : String) : pyStrip (pyStrip s) = pyStrip s :=
  pyStrip_eq_self (pyStrip_head s) (pyStrip_last s)

lemma isPySpace_of_final {c : Char} (h : isCsiFinal c = true) : isPySpace c = false := by
  simp [isCsiFinal] at h
  simp [isPySpace]
  omega

namespace Terminal

lemma ellipsify_nonpos (s : String) (L : Int) (p : Bool) (h : L ≤ 0) :
    ellipsify s L p = "" := by
  simp only [ellipsify]
  rw [if_pos h]

lemma ellipsify_fits (s : String) (L : Int) (h0 : ¬ L ≤ 0)
    (h1 : (len_on_display (pyStrip s) : Int) ≤ L) : ellipsify s L = pyStrip s := by
  simp only [ellipsify]
  rw [if_neg h0]
  simp only [Bool.false_eq_true, if_false]
  rw [if_pos h1]

lemma ellipsify_suffix (s : String) (L : Int) (h0 : ¬ L ≤ 0)
    (h1 : ¬ (len_on_display (pyStrip s) : Int) ≤ L)
    (h3 : ((("..." : String).length : Nat) : Int) ≥ L) :
    ellipsify s L = ⟨pySliceFrom ("..." : String).data
      (((("..." : String).length : Nat) : Int) - L)⟩ := by
  simp only [ellipsify]
  rw [if_neg h0]
  simp only [Bool.false_eq_true, if_false]
  rw [if_neg h1, if_pos h3]

lemma ellipsify_cutform (s : String) (L : Int) (h0 : ¬ L ≤ 0)
    (h1 : ¬ (len_on_display (pyStrip s) : Int) ≤ L)
    (h3 : ¬ ((("..." : String).length : Nat) : Int) ≥ L) :
    ellipsify s L = cut (pyStrip s)
      ((len_on_display (pyStrip s) : Int) - L + ((("..." : String).length : Nat) : Int))
      "..." := by
  simp only [ellipsify]
  rw [if_neg h0]
  simp only [Bool.false_eq_true, if_false]
  rw [if_neg h1, if_neg h3]

end Terminal

lemma ellipsis_len_eq : ((("..." : String).length : Nat) : Int) = 3 := rfl

lemma ellipsis_marker_safe : MarkerSafe ("..." : String).data := by
  intro c hc
  have hc3 : c = '.' := by
    simp [show ("..." : String).data = ['.', '.', '.'] from rfl] at hc
    exact hc
  subst hc3
  exact ⟨by decide, by decide⟩

lemma flatten_replicate_singleton (c : Char) :
    ∀ (k : Nat), (List.replicate k [c]).flatten = List.replicate k c := by
  intro k
  induction k with
  | zero => rfl
  | succ k ih => simp [List.replicate_succ, ih]

lemma pyRepeat_line_data (n : Int) :
    (pyRepeat "\u2501" n).data = List.replicate n.toNat '\u2501' := by
  show (List.replicate n.toNat ("\u2501" : String).data).flatten = _
  rw [show ("\u2501" : String).data = ['\u2501'] from rfl]
  exact flatten_replicate_singleton _ _

namespace Terminal

/-- `ellipsify` never exceeds a nonnegative budget. -/
lemma ellipsify_vis_le (s : String) (L : Int) (hL : 0 ≤ L) :
    (len_on_display (ellipsify s L) : Int) ≤ L := by
  by_cases h0 : L ≤ 0
  · rw [ellipsify_nonpos s L false h0]
    show ((0:Nat) : Int) ≤ L
    omega
  · by_cases h1 : (len_on_display (pyStrip s) : Int) ≤ L
    · rw [ellipsify_fits s L h0 h1]
      exact h1
    · by_cases h3 : ((("..." : String).length : Nat) : Int) ≥ L
      · rw [ellipsify_suffix s L h0 h1 h3]
        rw [ellipsis_len_eq] at h3
        have hdot : ∀ c ∈ pySliceFrom ("..." : String).data
            (((("..." : String).length : Nat) : Int) - L), c ≠ '\x1b' := by
          intro c hc
          have hmem : c ∈ ("..." : String).data := by
            unfold pySliceFrom at hc
            by_cases hk : (0:Int) ≤ (((("..." : String).length : Nat) : Int) - L)
            · rw [if_pos hk] at hc
              exact List.mem_of_mem_drop hc
            · rw [if_neg hk] at hc
              exact List.mem_of_mem_drop hc
          have : c = '.' := by
            rw [show ("..." : String).data = ['.', '.', '.'] from rfl] at hmem
            simpa using hmem
          rw [this]
          decide
        show ((stripAnsi _).length : Int) ≤ L
        rw [stripAnsi_of_noesc hdot]
        unfold pySliceFrom
        rw [ellipsis_len_eq]
        rw [if_pos (by omega)]
        rw [List.length_drop]
        rw [show ("..." : String).data.length = 3 from rfl]
        omega
      · rw [ellipsify_cutform s L h0 h1 h3, ellipsis_len_eq]
        rw [ellipsis_len_eq] at h3
        rw [cut_vis_marker _ _ _ ellipsis_marker_safe (by omega) (by omega)]
        rw [show ("..." : String).length = 3 from rfl]
        omega

/-- The exact visible width of a header-shaped line: the six decoration
characters, the two fills, and the title (the SGR wrappers are invisible). -/
lemma header_shape_vis (mid : String) (k1 k2 : Int) :
    len_on_display ("\u250f" ++ pyRepeat "\u2501" k1 ++ "\u252b" ++
      Colors.invert (" " ++ Colors.bold mid ++ " ") ++ "\u2523" ++
      pyRepeat "\u2501" k2 ++ "\u2513") =
      6 + k1.toNat + k2.toNat + len_on_display mid := by
  have hline : ∀ (n : Int) (x : List Char),
      stripAnsi (List.replicate n.toNat '\u2501' ++ x) =
        List.replicate n.toNat '\u2501' ++ stripAnsi x := by
    intro n x
    apply stripAnsi_noesc_append
    intro c hc
    rw [List.eq_of_mem_replicate hc]
    decide
  have h7 : ∀ x : List Char, stripAnsi ('\x1b' :: '[' :: '7' :: 'm' :: x) = stripAnsi x :=
    fun x => stripAnsi_esc_append
      (show escSeqLen ['\x1b', '[', '7', 'm'] =
        some (['\x1b', '[', '7', 'm'] : List Char).length from by decide) x
  have h1m : ∀ x : List Char, stripAnsi ('\x1b' :: '[' :: '1' :: 'm' :: x) = stripAnsi x :=
    fun x => stripAnsi_esc_append
      (show escSeqLen ['\x1b', '[', '1', 'm'] =
        some (['\x1b', '[', '1', 'm'] : List Char).length from by decide) x
  have h22 : ∀ x : List Char,
      stripAnsi ('\x1b' :: '[' :: '2' :: '2' :: 'm' :: x) = stripAnsi x :=
    fun x => stripAnsi_esc_append
      (show escSeqLen ['\x1b', '[', '2', '2', 'm'] =
        some (['\x1b', '[', '2', '2', 'm'] : List Char).length from by decide) x
  have h27 : ∀ x : List Char,
      stripAnsi ('\x1b' :: '[' :: '2' :: '7' :: 'm' :: x) = stripAnsi x :=
    fun x => stripAnsi_esc_append
      (show escSeqLen ['\x1b', '[', '2', '7', 'm'] =
        some (['\x1b', '[', '2', '7', 'm'] : List Char).length from by decide) x
  show (stripAnsi _).length = _
  have hdata : ("\u250f" ++ pyRepeat "\u2501" k1 ++ "\u252b" ++
      Colors.invert (" " ++ Colors.bold mid ++ " ") ++ "\u2523" ++
      pyRepeat "\u2501" k2 ++ "\u2513").data =
      '\u250f' :: (List.replicate k1.toNat '\u2501' ++
        ('\u252b' :: ('\x1b' :: '[' :: '7' :: 'm' ::
          (' ' :: ('\x1b' :: '[' :: '1' :: 'm' ::
            (mid.data ++
              ('\x1b' :: '[' :: '2' :: '2' :: 'm' ::
                (' ' :: ('\x1b' :: '[' :: '2' :: '7' :: 'm' ::
                  ('\u2523' :: (List.replicate k2.toNat '\u2501' ++
                    ['\u2513']))))))))))) := by
    simp [String.data_append, Colors.invert, Colors.bold, pyRepeat_line_data]
  rw [hdata]
  rw [stripAnsi_cons_not_esc _ (by decide)]
  rw [hline]
  rw [stripAnsi_cons_not_esc _ (by decide)]
  rw [h7]
  rw [stripAnsi_cons_not_esc _ (by decide)]
  rw [h1m]
  have hmidX : stripAnsi (mid.data ++ ('\x1b' :: '[' :: '2' :: '2' :: 'm' ::
        (' ' :: ('\x1b' :: '[' :: '2' :: '7' :: 'm' ::
          ('\u2523' :: (List.replicate k2.toNat '\u2501' ++ ['\u2513'])))))) =
      stripAnsi mid.data ++ stripAnsi ('\x1b' :: '[' :: '2' :: '2' :: 'm' ::
        (' ' :: ('\x1b' :: '[' :: '2' :: '7' :: 'm' ::
          ('\u2523' :: (List.replicate k2.toNat '\u2501' ++ ['\u2513']))))) := by
    apply stripAnsi_append_escHead
    exact Or.inr rfl
  rw [hmidX]
  rw [h22]
  rw [stripAnsi_cons_not_esc _ (by decide)]
  rw [h27]
  rw [stripAnsi_cons_not_esc _ (by decide)]
  rw [hline]
  rw [show stripAnsi ['\u2513'] = ['\u2513'] from by decide]
  simp [List.length_append, List.length_replicate]
  show _ = 6 + k1.toNat + k2.toNat + (stripAnsi mid.data).length
  omega

end Terminal

namespace Terminal

/-- Visible width of the full header line for any width of at least the six
decoration characters. -/
lemma headerLine_vis (w : Int) (t : String) (hw : 6 ≤ w) :
    (len_on_display (headerLine t w) : Int) = w := by
  have hunfold : headerLine t w =
      "\u250f" ++ pyRepeat "\u2501" (Int.fdiv ((w - 6) -
          (len_on_display (ellipsify (pyStrip t) (w - 6)) : Int)) 2) ++
        "\u252b" ++
        Colors.invert (" " ++ Colors.bold (ellipsify (pyStrip t) (w - 6)) ++ " ") ++
        "\u2523" ++
        pyRepeat "\u2501" (((w - 6) -
            (len_on_display (ellipsify (pyStrip t) (w - 6)) : Int)) -
          Int.fdiv ((w - 6) -
            (len_on_display (ellipsify (pyStrip t) (w - 6)) : Int)) 2) ++
        "\u2513" := rfl
  rw [hunfold, header_shape_vis]
  have hvis := ellipsify_vis_le (pyStrip t) (w - 6) (by omega)
  have hfd : Int.fdiv ((w - 6) -
      (len_on_display (ellipsify (pyStrip t) (w - 6)) : Int)) 2 =
      ((w - 6) - (len_on_display (ellipsify (pyStrip t) (w - 6)) : Int)) / 2 :=
    Int.fdiv_eq_ediv _ (by norm_num)
  rw [hfd]
  push_cast
  omega

end Terminal

/-- A valid SGR escape sequence: `ESC [`, a run of CSI parameter bytes, and
the SGR final byte `m`. -/
def isSGRSeq (e : String) : Bool :=
  match e.data with
  | '\x1b' :: '[' :: rest =>
    (rest.getLast? == some 'm') && rest.dropLast.all isCsiParam
  | _ => false

lemma isSGRSeq_completeEsc {e : String} (h : isSGRSeq e = true) :
    CompleteEsc e.data := by
  unfold isSGRSeq at h
  split at h
  case h_2 => exact absurd h (by simp)
  case h_1 rest heq =>
    simp only [Bool.and_eq_true, beq_iff_eq, List.all_eq_true] at h
    obtain ⟨hg, hall⟩ := h
    have hne : rest ≠ [] := by
      intro hh
      rw [hh] at hg
      simp at hg
    have hlast : rest.getLast hne = 'm' := by
      have h1 := List.getLast?_eq_getLast rest hne
      rw [hg] at h1
      exact (Option.some.inj h1).symm
    have hrest : rest = rest.dropLast ++ ['m'] := by
      conv_lhs => rw [← List.dropLast_append_getLast hne]
      rw [hlast]
    show escSeqLen e.data = some e.data.length
    rw [heq]
    conv_lhs => rw [hrest]
    have hm := EscMatch.csi rest.dropLast [] 'm' []
      (fun c hc => hall c hc) (fun c hc => absurd hc (by simp)) (by decide)
    have hidx : ('\x1b' :: '[' :: (rest.dropLast ++ ([] ++ 'm' :: []))) =
        '\x1b' :: '[' :: (rest.dropLast ++ ['m']) := by simp
    rw [hidx] at hm
    have hsz : ('\x1b' :: '[' :: rest).length =
        rest.dropLast.length + ([] : List Char).length + 3 := by
      conv_lhs => rw [hrest]
      simp
    rw [hsz]
    exact escSeqLen_eq_some_iff.mpr hm

namespace Terminal

/-- The last cursor movement of `capture_input` is the absolute move to the
saved position whenever the saved position is an on-screen coordinate. -/
lemma capture_input_moves_last (terminal_size_rows : Int) (saved_pos input_pos : Int × Int)
    (additional_rows : Int) (h1 : 0 < saved_pos.1) (h2 : 0 < saved_pos.2)
    (h3 : saved_pos.2 ≤ terminal_size_rows) :
    (capture_input_moves terminal_size_rows saved_pos input_pos additional_rows).getLast? =
      some ("\x1b[" ++ toString saved_pos.2 ++ ";" ++ toString saved_pos.1 ++ "H") := by
  show some (cursor_set_position terminal_size_rows saved_pos) = _
  unfold cursor_set_position calculate_row_offset
  rw [if_neg (by omega), if_neg (by omega), if_neg (by omega)]
  show some ("\x1b[" ++ toString (saved_pos.2 + (0:Int)) ++ ";" ++
    toString saved_pos.1 ++ "H") = _
  rw [Int.add_zero]

end Terminal

/-! Claim theorems. -/

/-- Claim C1 (counterexample): at `excess = 0` with a visible character and a
nonempty marker, `cut` does splice the marker in, so the result is not the
unchanged input: `cut("A", 0, "X") = "AX"`. -/
theorem cut_nonpositive_noop_counterexample :
    Terminal.cut "A" 0 "X" = "AX" ∧ Terminal.cut "A" 0 "X" ≠ "A" := by
  constructor
  · decide
  · decide

/-- Claim C1 (amended): for every string `s`, every strictly negative integer
`excess` and every marker `m`, `cut(s, excess, insert_end = m)` returns `s`
unchanged with no marker inserted; at `excess = 0` the visible content is
unchanged but the marker is inserted after the last visible character. -/
theorem cut_negative_noop (s : String) (excess : Int) (m : String)
    (h : excess < 0) : Terminal.cut s excess m = s :=
  Terminal.cut_of_neg s excess m h

/-- Witness for claim C1's amended theorem at a concrete styled input. -/
theorem cut_negative_noop_witness :
    Terminal.cut "\x1b[31mAB" (-2) "X" = "\x1b[31mAB" :=
  cut_negative_noop "\x1b[31mAB" (-2) "X" (by decide)

/-- Claim C2 (code bug): on the malformed report `ESC [ ; R` the regex
`.*\[(\d*);(\d*)R` matches with empty digit groups, so the parsing stage of
`cursor_get_position` raises `ValueError` from `int('')` instead of degrading
to the default position `(1, 1)`. -/
theorem cursor_report_empty_groups_raises :
    cursorReportParse "\x1b[;R" = Except.error "ValueError" := rfl

/-- Claim C3 (counterexample): the guard of the boundary property must be on
the stripped string: `"A   "` has visible length `4 > 3`, yet
`ellipsify("A   ", 1)` strips to `"A"`, which fits the budget, and returns
`"A"`, not `"."`. -/
theorem ellipsify_boundary_counterexample :
    3 < Terminal.len_on_display "A   " ∧ Terminal.ellipsify "A   " 1 ≠ "." := by
  constructor
  · decide
  · decide

/-- Claim C3 (amended): for every string `s` whose stripped visible length
exceeds 3, `ellipsify(s, 0) = ""`, `ellipsify(s, 1) = "."`,
`ellipsify(s, 2) = ".."` and `ellipsify(s, 3) = "..."`. -/
theorem ellipsify_boundary_budgets (s : String)
    (h : 3 < (Terminal.len_on_display (pyStrip s) : Int)) :
    Terminal.ellipsify s 0 = "" ∧ Terminal.ellipsify s 1 = "." ∧
      Terminal.ellipsify s 2 = ".." ∧ Terminal.ellipsify s 3 = "..." := by
  refine ⟨Terminal.ellipsify_nonpos s 0 false le_rfl, ?_, ?_, ?_⟩
  · rw [Terminal.ellipsify_suffix s 1 (by omega) (by omega)
      (by rw [ellipsis_len_eq]; omega)]
    rfl
  · rw [Terminal.ellipsify_suffix s 2 (by omega) (by omega)
      (by rw [ellipsis_len_eq]; omega)]
    rfl
  · rw [Terminal.ellipsify_suffix s 3 (by omega) (by omega)
      (by rw [ellipsis_len_eq])]
    rfl

/-- Witness for claim C3's amended theorem at `s = "ABCDE"`. -/
theorem ellipsify_boundary_budgets_witness :
    Terminal.ellipsify "ABCDE" 0 = "" ∧ Terminal.ellipsify "ABCDE" 1 = "." ∧
      Terminal.ellipsify "ABCDE" 2 = ".." ∧ Terminal.ellipsify "ABCDE" 3 = "..." :=
  ellipsify_boundary_budgets "ABCDE" (by decide)

/-- Claim C4: `cut("\x1b[31mHELLO\x1b[39m", 2)` yields
`"\x1b[31mHEL\x1b[39m"`: visible content `"HEL"` with both escape sequences
intact and in their original relative order. -/
theorem cut_preserves_trailing_styling :
    Terminal.cut "\x1b[31mHELLO\x1b[39m" 2 = "\x1b[31mHEL\x1b[39m" := by
  decide

/-- Claim C5: `ellipsify` is idempotent for budgets above the ellipsis width:
for every string `s` and every `n > 3`,
`ellipsify(ellipsify(s, n), n) = ellipsify(s, n)`. -/
theorem ellipsify_idempotent (s : String) (n : Int) (h3 : 3 < n) :
    Terminal.ellipsify (Terminal.ellipsify s n) n = Terminal.ellipsify s n := by
  have hl3 : ("..." : String).length = 3 := rfl
  by_cases hfit : (Terminal.len_on_display (pyStrip s) : Int) ≤ n
  · rw [Terminal.ellipsify_fits s n (by omega) hfit]
    rw [Terminal.ellipsify_fits (pyStrip s) n (by omega)
      (by rw [pyStrip_idem]; exact hfit)]
    exact pyStrip_idem s
  · rw [Terminal.ellipsify_cutform s n (by omega) hfit (by rw [ellipsis_len_eq]; omega)]
    obtain ⟨A, E, hd1, hAne, ⟨d, hpre⟩, hstrip, hlen, hE⟩ :=
      Terminal.cut_structure (pyStrip s)
        ((Terminal.len_on_display (pyStrip s) : Int) - n +
          ((("..." : String).length : Nat) : Int)) "..." ellipsis_marker_safe
        (by rw [ellipsis_len_eq]; omega) (by rw [ellipsis_len_eq]; omega)
    have hstripr : pyStrip (Terminal.cut (pyStrip s)
        ((Terminal.len_on_display (pyStrip s) : Int) - n +
          ((("..." : String).length : Nat) : Int)) "...") =
        Terminal.cut (pyStrip s)
          ((Terminal.len_on_display (pyStrip s) : Int) - n +
            ((("..." : String).length : Nat) : Int)) "..." := by
      apply pyStrip_eq_self
      · right
        match A, hAne with
        | a0 :: A', _ =>
          refine ⟨a0, A' ++ (("..." : String).data ++ E), ?_, ?_⟩
          · rw [hd1]
            simp [List.append_assoc]
          · rcases pyStrip_head s with hnil | ⟨c, t, heqd, hc⟩
            · rw [hnil] at hpre
              exact absurd hpre (by simp)
            · rw [heqd] at hpre
              have ha0 : a0 = c := by
                have hh := congrArg List.head? hpre
                simpa using hh
              rw [ha0]
              exact hc
      · right
        rcases hE with hEnil | ⟨lc, hlast, hfin⟩
        · refine ⟨'.', ?_, by decide⟩
          rw [hd1, hEnil, List.append_nil]
          rw [List.getLast?_append_of_ne_nil _ (show ("..." : String).data ≠ [] by decide)]
          rfl
        · refine ⟨lc, ?_, isPySpace_of_final hfin⟩
          rw [hd1]
          have hEne : E ≠ [] := by
            intro hh
            rw [hh] at hlast
            simp at hlast
          rw [List.getLast?_append_of_ne_nil _ hEne]
          exact hlast
    have hvisr : (Terminal.len_on_display (Terminal.cut (pyStrip s)
        ((Terminal.len_on_display (pyStrip s) : Int) - n +
          ((("..." : String).length : Nat) : Int)) "...") : Int) = n := by
      have hv := Terminal.cut_vis_marker (pyStrip s)
        ((Terminal.len_on_display (pyStrip s) : Int) - n +
          ((("..." : String).length : Nat) : Int)) "..." ellipsis_marker_safe
        (by rw [ellipsis_len_eq]; omega) (by rw [ellipsis_len_eq]; omega)
      rw [hv]
      omega
    rw [Terminal.ellipsify_fits _ n (by omega) (by rw [hstripr]; omega)]
    exact hstripr

/-- Witness for claim C5 at a concrete truncating input. -/
theorem ellipsify_idempotent_witness :
    Terminal.ellipsify (Terminal.ellipsify "ABCDEFGHIJ" 5) 5 =
      Terminal.ellipsify "ABCDEFGHIJ" 5 :=
  ellipsify_idempotent "ABCDEFGHIJ" 5 (by decide)

/-- Claim C6: a valid SGR escape sequence carries zero visible width: for
every string `s` and SGR sequence `e`,
`visibleLength(e + s) = visibleLength(s) = visibleLength(s + e)`. -/
theorem sgr_zero_visible_width (s e : String) (h : isSGRSeq e = true) :
    Terminal.len_on_display (e ++ s) = Terminal.len_on_display s ∧
      Terminal.len_on_display (s ++ e) = Terminal.len_on_display s := by
  have hce := isSGRSeq_completeEsc h
  constructor
  · show (stripAnsi (e ++ s).data).length = _
    rw [String.data_append, stripAnsi_esc_append hce]
    rfl
  · show (stripAnsi (s ++ e).data).length = _
    rw [String.data_append, stripAnsi_append_escHead (Or.inr hce.head_esc) s.data,
      stripAnsi_esc_eq_nil hce, List.append_nil]
    rfl

/-- Witness for claim C6 with the red SGR sequence around `"AB"`. -/
theorem sgr_zero_visible_width_witness :
    Terminal.len_on_display ("\x1b[31m" ++ "AB") = Terminal.len_on_display "AB" ∧
      Terminal.len_on_display ("AB" ++ "\x1b[31m") = Terminal.len_on_display "AB" :=
  sgr_zero_visible_width "AB" "\x1b[31m" (by decide)

/-- Claim C7 (counterexample): at terminal width 3 the header line still
contains its six fixed decoration characters, so its visible length is 6,
not the terminal width. -/
theorem header_width_counterexample :
    Terminal.len_on_display (Terminal.headerLine "Menu" 3) = 6 ∧
      Terminal.len_on_display (Terminal.headerLine "Menu" 3) ≠ 3 := by
  constructor
  · decide
  · decide

/-- Claim C7 (amended): for every terminal width `w ≥ 6` and every title, the
header line has visible length exactly `w`: the title is ellipsified to the
budget `w - 6`, and the fill is split by integer division with the extra
column in the right half. -/
theorem header_width_exact (w : Int) (t : String) (hw : 6 ≤ w) :
    (Terminal.len_on_display (Terminal.headerLine t w) : Int) = w :=
  Terminal.headerLine_vis w t hw

/-- Witness for claim C7's amended theorem: width 80 with title `"Menu"`. -/
theorem header_width_exact_witness :
    (Terminal.len_on_display (Terminal.headerLine "Menu" 80) : Int) = 80 :=
  header_width_exact 80 "Menu" (by decide)

/-- Claim C8: the final cursor movement emitted by `capture_input` is the
absolute move to the position saved by its initial cursor query, for every
anchor position and `additional_rows` value, whenever the saved position is
an on-screen coordinate. -/
theorem capture_input_restores_position (terminal_size_rows : Int)
    (saved_pos input_pos : Int × Int) (additional_rows : Int)
    (h1 : 0 < saved_pos.1) (h2 : 0 < saved_pos.2)
    (h3 : saved_pos.2 ≤ terminal_size_rows) :
    (Terminal.capture_input_moves terminal_size_rows saved_pos input_pos
        additional_rows).getLast? =
      some ("\x1b[" ++ toString saved_pos.2 ++ ";" ++ toString saved_pos.1 ++ "H") :=
  Terminal.capture_input_moves_last terminal_size_rows saved_pos input_pos
    additional_rows h1 h2 h3

/-- Witness for claim C8 at a concrete saved position and anchor. -/
theorem capture_input_restores_position_witness :
    (Terminal.capture_input_moves 40 (5, 7) (3, 39) 2).getLast? =
      some ("\x1b[" ++ toString (7:Int) ++ ";" ++ toString (5:Int) ++ "H") :=
  capture_input_restores_position 40 (5, 7) (3, 39) 2 (by decide) (by decide)
    (by decide)

/-- Claim C9: when truncation occurs the ellipsis exactly fills the budget:
for `3 < n < visibleLength(strip(s))`, `visibleLength(ellipsify(s, n)) = n`. -/
theorem ellipsify_truncation_exact (s : String) (n : Int) (h3 : 3 < n)
    (hlt : n < (Terminal.len_on_display (pyStrip s) : Int)) :
    (Terminal.len_on_display (Terminal.ellipsify s n) : Int) = n := by
  have hl3 : ("..." : String).length = 3 := rfl
  rw [Terminal.ellipsify_cutform s n (by omega) (by omega)
    (by rw [ellipsis_len_eq]; omega)]
  have hv := Terminal.cut_vis_marker (pyStrip s)
    ((Terminal.len_on_display (pyStrip s) : Int) - n +
      ((("..." : String).length : Nat) : Int)) "..." ellipsis_marker_safe
    (by rw [ellipsis_len_eq]; omega) (by rw [ellipsis_len_eq]; omega)
  rw [hv]
  omega

/-- Witness for claim C9 at `s = "ABCDEFGHIJ"`, `n = 5`. -/
theorem ellipsify_truncation_exact_witness :
    (Terminal.len_on_display (Terminal.ellipsify "ABCDEFGHIJ" 5) : Int) = 5 :=
  ellipsify_truncation_exact "ABCDEFGHIJ" 5 (by decide) (by decide)

/-- Claim C10: `cut` removes exactly the requested number of visible
characters: for `0 ≤ k ≤ visibleLength(s)`,
`visibleLength(cut(s, k, "")) = visibleLength(s) - k`. -/
theorem cut_visible_length_linear (s : String) (k : Int) (h0 : 0 ≤ k)
    (h1 : k ≤ (Terminal.len_on_display s : Int)) :
    (Terminal.len_on_display (Terminal.cut s k "") : Int) =
      (Terminal.len_on_display s : Int) - k := by
  by_cases hk : k = (Terminal.len_on_display s : Int)
  · rw [hk, Terminal.cut_vis_full]
    push_cast
    omega
  · have hempty : MarkerSafe ("" : String).data := by
      intro c hc
      exact absurd hc (by simp [show ("" : String).data = [] from rfl])
    have hv := Terminal.cut_vis_marker s k "" hempty h0 (by omega)
    rw [hv]
    rw [show ("" : String).length = 0 from rfl]
    push_cast
    omega

/-- Witness for claim C10 at a styled input with `k = 2`. -/
theorem cut_visible_length_linear_witness :
    (Terminal.len_on_display (Terminal.cut "\x1b[31mABCDE\x1b[39m" 2 "") : Int) =
      (Terminal.len_on_display "\x1b[31mABCDE\x1b[39m" : Int) - 2 :=
  cut_visible_length_linear "\x1b[31mABCDE\x1b[39m" 2 (by decide) (by decide)

end Auv
